import Mathlib

/-!
# Verification of the ladybug-learning core (`src/core.rs`, `src/cognitive.rs`, `src/nars.rs`)

A shallow embedding of the three core modules of the repository, together with
theorems settling the specification claims about them.

Modelling conventions:
* Rust `f32` quantities are modelled as exact rationals (`ℚ`).  Floating-point
  rounding is not modelled; all concrete inputs appearing in the claims
  (`0`, `10`, `3`, `5`, `0.5`, `9`, `1`, …) and all constants are exactly
  representable, so the modelled comparisons agree with the `f32` ones there.
* `u64` machine words are modelled as `Nat`; where the 64-bit width matters
  (bit counts, complements) the bound `< 2 ^ 64` is carried explicitly.
* The standard deviation computed by `calculate_sd` is irrational in general,
  so the gate model carries the *variance* (the square of the standard
  deviation, an exact rational) and compares it against the squared
  thresholds; since `Real.sqrt` is strictly monotone on nonnegatives this is
  equivalent to the source's comparison of the standard deviation against the
  thresholds, and the equivalence is proved (`get_gate_state_sq_flow_iff` …).
* Code that can panic (the `partial_cmp(..).unwrap()` in `evaluate_gate`) is
  modelled in a second embedding over an `F32` type with a NaN point, whose
  result type is `Except Unit _`; `.error ()` models a panic.
* The wall-clock read in `rand_u64` is modelled by threading the current
  nanosecond count as an explicit argument `now`.
-/

/-! ## `src/nars.rs` — NARS truth values -/

/-- NARS truth value: a (frequency, confidence) pair.  Fields are `pub` in the
source, so arbitrary values are representable. -/
structure TruthValue where
  frequency : ℚ
  confidence : ℚ
deriving DecidableEq, Repr

/-- Rust's `x.clamp(0.0, 1.0)` for a (non-NaN) value. -/
def clamp01 (x : ℚ) : ℚ := max 0 (min x 1)

/-- The `TruthValue::new`: clamps both components into `[0,1]`. -/
def TruthValue.new (frequency confidence : ℚ) : TruthValue :=
  ⟨clamp01 frequency, clamp01 confidence⟩

/-- The `TruthValue::unknown`: the canonical unknown value `(0.5, 0)`. -/
def TruthValue.unknown : TruthValue := ⟨1/2, 0⟩

/-- The `TruthValue::certain_true`. -/
def TruthValue.certain_true : TruthValue := ⟨1, 9/10⟩

/-- The `TruthValue::certain_false`. -/
def TruthValue.certain_false : TruthValue := ⟨0, 9/10⟩

/-- The `TruthValue::from_evidence`: guard is `total == 0.0` on the *sum*; the
result components are not clamped. -/
def TruthValue.from_evidence (positive negative : ℚ) : TruthValue :=
  let total := positive + negative
  if total = 0 then TruthValue.unknown
  else ⟨positive / total, total / (total + 1)⟩

/-- The `TruthValue::expectation`: `c * (f - 0.5) + 0.5`. -/
def TruthValue.expectation (t : TruthValue) : ℚ :=
  t.confidence * (t.frequency - 1/2) + 1/2

/-- The `TruthValue::deduction`. -/
def TruthValue.deduction (a b : TruthValue) : TruthValue :=
  TruthValue.new (a.frequency * b.frequency)
    (a.confidence * b.confidence * a.frequency * b.frequency)

/-- The `TruthValue::induction`.  Faithful to the source only where the
divisor `self.frequency + 1.0` is nonzero: Lean rational division is total
with `x / 0 = 0`, whereas at `frequency = -1` the `f32` code divides by an
exact zero and yields `±∞` (clamped into range) or, with a zero numerator,
`NaN` (not in range: `0.0/0.0`).  Theorems about this operation therefore
carry the hypothesis `a.frequency + 1 ≠ 0`. -/
def TruthValue.induction (a b : TruthValue) : TruthValue :=
  TruthValue.new b.frequency
    (a.frequency * a.confidence * b.confidence / (a.frequency + 1))

/-- The `TruthValue::abduction`.  Faithful only where the divisor
`other.frequency + 1.0` is nonzero, as for `induction`; theorems carry the
hypothesis `b.frequency + 1 ≠ 0`. -/
def TruthValue.abduction (a b : TruthValue) : TruthValue :=
  TruthValue.new a.frequency
    (b.frequency * a.confidence * b.confidence / (b.frequency + 1))

/-- The `f32::EPSILON = 2 ^ (-23)`, exactly representable as a rational. -/
def F32_EPSILON : ℚ := 1 / 2 ^ 23

/-- The `TruthValue::revision`.  Faithful only where the four `f32` divisors
are nonzero: the weight denominators `1 - confidence + EPSILON` (an exact
`f32` zero at confidence `1 + 2^(-23)`, where the code produces `w = +∞` and
then NaN), the blended-frequency denominator `w1 + w2 + EPSILON` and the
confidence denominator `w1 + w2 + 1`.  Theorems about this operation carry
the corresponding nonzero hypotheses. -/
def TruthValue.revision (a b : TruthValue) : TruthValue :=
  let w1 := a.confidence / (1 - a.confidence + F32_EPSILON)
  let w2 := b.confidence / (1 - b.confidence + F32_EPSILON)
  let w := w1 + w2
  TruthValue.new ((w1 * a.frequency + w2 * b.frequency) / (w + F32_EPSILON))
    (w / (w + 1))

/-- The `TruthValue::negation`. -/
def TruthValue.negation (a : TruthValue) : TruthValue :=
  TruthValue.new (1 - a.frequency) a.confidence

/-- Both components lie in `[0,1]`. -/
def TruthValue.InRange (t : TruthValue) : Prop :=
  0 ≤ t.frequency ∧ t.frequency ≤ 1 ∧ 0 ≤ t.confidence ∧ t.confidence ≤ 1

lemma clamp01_nonneg (x : ℚ) : 0 ≤ clamp01 x := le_max_left _ _

lemma clamp01_le_one (x : ℚ) : clamp01 x ≤ 1 := by
  unfold clamp01
  rcases le_total x 1 with h | h <;> simp [min_eq_left, min_eq_right, h]

lemma TruthValue.new_inRange (f c : ℚ) : (TruthValue.new f c).InRange :=
  ⟨clamp01_nonneg _, clamp01_le_one _, clamp01_nonneg _, clamp01_le_one _⟩

/-- Claim C7 (counterexample): `from_evidence` does not clamp: at evidence counts
`(3, -1)` it returns frequency `3 / (3 + (-1)) = 3/2 ∉ [0,1]`.  This refutes
the claim that *every* operation clamps inputs and outputs into range. -/
theorem C7_from_evidence_not_clamped :
    (TruthValue.from_evidence 3 (-1)).frequency = 3/2 ∧
      ¬ (TruthValue.from_evidence 3 (-1)).frequency ≤ 1 := by
  have h : (TruthValue.from_evidence 3 (-1)).frequency = 3/2 := by
    norm_num [TruthValue.from_evidence]
  exact ⟨h, by rw [h]; norm_num⟩

/-- Claim C7 (amended): `new`, `deduction` and `negation` return values with
frequency and confidence in `[0,1]` for all finite (non-NaN, exact-rational)
inputs, since each routes its result through the clamping constructor `new`;
`induction`, `abduction` and `revision` do so provided their `f32` divisors
are nonzero — `a.frequency ≠ -1` for induction, `b.frequency ≠ -1` for
abduction, and for revision the weight denominators `1 - c + 2^(-23)`
(nonzero below confidence `1 + 2^(-23)`), the blended-frequency denominator
and the confidence denominator — conditions automatic for in-range truth
values.  At an exactly-zero divisor the `f32` code instead produces `±∞`
(which `clamp` returns to range) or NaN (out of range, e.g. the `0.0/0.0`
confidence of `induction` at `⟨-1, 0⟩`); those points are outside this
theorem's scope, as the exact-rational model does not represent them.
`from_evidence` does not clamp at all, but its result lies in `[0,1]`
whenever both evidence counts are nonnegative. -/
theorem C7_operations_in_range (a b : TruthValue) (f c p n : ℚ) :
    (TruthValue.new f c).InRange ∧
      (a.deduction b).InRange ∧
      (a.frequency + 1 ≠ 0 → (a.induction b).InRange) ∧
      (b.frequency + 1 ≠ 0 → (a.abduction b).InRange) ∧
      (1 - a.confidence + F32_EPSILON ≠ 0 →
        1 - b.confidence + F32_EPSILON ≠ 0 →
        a.confidence / (1 - a.confidence + F32_EPSILON)
            + b.confidence / (1 - b.confidence + F32_EPSILON)
            + F32_EPSILON ≠ 0 →
        a.confidence / (1 - a.confidence + F32_EPSILON)
            + b.confidence / (1 - b.confidence + F32_EPSILON)
            + 1 ≠ 0 →
        (a.revision b).InRange) ∧
      a.negation.InRange ∧
      (0 ≤ p → 0 ≤ n → (TruthValue.from_evidence p n).InRange) := by
  refine ⟨TruthValue.new_inRange _ _, TruthValue.new_inRange _ _,
    fun _ => TruthValue.new_inRange _ _, fun _ => TruthValue.new_inRange _ _,
    fun _ _ _ _ => TruthValue.new_inRange _ _, TruthValue.new_inRange _ _, ?_⟩
  intro hp hn
  unfold TruthValue.from_evidence
  by_cases h : p + n = 0
  · simp only [h, if_pos rfl]
    exact ⟨by norm_num [TruthValue.unknown], by norm_num [TruthValue.unknown],
      by norm_num [TruthValue.unknown], by norm_num [TruthValue.unknown]⟩
  · have htot : 0 < p + n := lt_of_le_of_ne (by linarith) (Ne.symm h)
    simp only [if_neg h]
    refine ⟨div_nonneg hp htot.le, ?_, ?_, ?_⟩
    · exact div_le_one_of_le₀ (by linarith) htot.le
    · exact div_nonneg htot.le (by linarith)
    · exact div_le_one_of_le₀ (by linarith) (by linarith)

/-- Witness for `C7_operations_in_range`: discharges every divisor and sign
hypothesis at the concrete truth value `certain_true = (1, 0.9)` and evidence
counts `(9, 1)`. -/
theorem C7_operations_in_range_witness :
    (TruthValue.certain_true.induction TruthValue.certain_true).InRange ∧
      (TruthValue.certain_true.abduction TruthValue.certain_true).InRange ∧
      (TruthValue.certain_true.revision TruthValue.certain_true).InRange ∧
      (TruthValue.from_evidence 9 1).InRange :=
  ⟨(C7_operations_in_range TruthValue.certain_true TruthValue.certain_true
        0 0 9 1).2.2.1 (by norm_num [TruthValue.certain_true]),
    (C7_operations_in_range TruthValue.certain_true TruthValue.certain_true
        0 0 9 1).2.2.2.1 (by norm_num [TruthValue.certain_true]),
    (C7_operations_in_range TruthValue.certain_true TruthValue.certain_true
        0 0 9 1).2.2.2.2.1
      (by norm_num [TruthValue.certain_true, F32_EPSILON])
      (by norm_num [TruthValue.certain_true, F32_EPSILON])
      (by norm_num [TruthValue.certain_true, F32_EPSILON])
      (by norm_num [TruthValue.certain_true, F32_EPSILON]),
    (C7_operations_in_range TruthValue.certain_true TruthValue.certain_true
        0 0 9 1).2.2.2.2.2.2 (by norm_num) (by norm_num)⟩

/-- Claim C8 (counterexample): the zero-evidence guard in the source tests
`positive + negative == 0`, not "both zero": at `(5, -5)` the code returns the
unknown value with frequency `1/2`, whereas the claim's "otherwise" branch
requires frequency `positive / (positive + negative)`, which, whatever value a
division by the zero total is given, is not `1/2` (it is `0` under the total
rational division of this model, `+∞` in `f32`). -/
theorem C8_guard_is_total_not_both :
    TruthValue.from_evidence 5 (-5) = TruthValue.unknown ∧
      (TruthValue.from_evidence 5 (-5)).frequency = 1/2 ∧
      (5 : ℚ) / (5 + (-5)) ≠ 1/2 := by
  have h : TruthValue.from_evidence 5 (-5) = TruthValue.unknown := by
    norm_num [TruthValue.from_evidence]
  exact ⟨h, by rw [h]; norm_num [TruthValue.unknown], by norm_num⟩

/-- Claim C8 (amended): `from_evidence` returns the canonical unknown value
`(0.5, 0)` exactly when `positive + negative = 0` — in particular at `(0,0)`,
never a division fault — and otherwise returns
`(positive/(positive+negative), total/(total+1))`; at `(9,1)` this is
`(9/10, 10/11)`. -/
theorem C8_from_evidence_formula (p n : ℚ) :
    TruthValue.from_evidence 0 0 = TruthValue.unknown ∧
      (p + n = 0 → TruthValue.from_evidence p n = TruthValue.unknown) ∧
      (p + n ≠ 0 →
        TruthValue.from_evidence p n = ⟨p / (p + n), (p + n) / (p + n + 1)⟩) ∧
      TruthValue.from_evidence 9 1 = ⟨9/10, 10/11⟩ := by
  refine ⟨by norm_num [TruthValue.from_evidence], ?_, ?_, ?_⟩
  · intro h
    simp [TruthValue.from_evidence, h]
  · intro h
    simp [TruthValue.from_evidence, h]
  · norm_num [TruthValue.from_evidence, TruthValue.mk.injEq]

/-- Witness for `C8_from_evidence_formula`: discharges both hypotheses at
concrete evidence counts. -/
theorem C8_from_evidence_formula_witness :
    TruthValue.from_evidence 9 1 = ⟨(9 : ℚ) / (9 + 1), (9 + 1) / (9 + 1 + 1)⟩ ∧
      TruthValue.from_evidence 5 (-5) = TruthValue.unknown :=
  ⟨(C8_from_evidence_formula 9 1).2.2.1 (by norm_num),
    (C8_from_evidence_formula 5 (-5)).2.1 (by norm_num)⟩

/-! ## `src/core.rs` — 10,000-bit VSA fingerprints -/

/-- The `FINGERPRINT_BITS = 10_000`. -/
def FINGERPRINT_BITS : Nat := 10000

/-- The `FINGERPRINT_U64 = 157 = ceil(10000/64)`.  Note `157 * 64 = 10048`: the
backing store has 48 bits beyond position 9999. -/
def FINGERPRINT_U64 : Nat := 157

/-- A fingerprint: the fixed array `data: [u64; 157]`, modelled as a function
from word index to word value.  A word of the source is a `u64`, i.e. `< 2^64`
(`Fingerprint.ValidWords` below); any such array is constructible through
`Fingerprint::from_raw`. -/
def Fingerprint : Type := Fin FINGERPRINT_U64 → Nat

/-- All words fit in 64 bits, as every value of the Rust type does. -/
def Fingerprint.ValidWords (fp : Fingerprint) : Prop :=
  ∀ w : Fin FINGERPRINT_U64, fp w < 2 ^ 64

/-- The `Fingerprint::zero`. -/
def Fingerprint.zero : Fingerprint := fun _ => 0

/-- The `u64::count_ones` on a 64-bit word: the number of set bits among
positions `0..64`. -/
def popcount64 (x : Nat) : Nat :=
  (List.range 64).countP (fun i => x.testBit i)

/-- The `Fingerprint::hamming`: sum over the zipped word arrays of the popcount
of the XOR. -/
def Fingerprint.hamming (a b : Fingerprint) : Nat :=
  ∑ w : Fin FINGERPRINT_U64, popcount64 (a w ^^^ b w)

/-- The `Fingerprint::similarity`: `1.0 - hamming / 10000`. -/
def Fingerprint.similarity (a b : Fingerprint) : ℚ :=
  1 - (Fingerprint.hamming a b : ℚ) / (FINGERPRINT_BITS : ℚ)

/-- The `Fingerprint::bind`: word-wise XOR. -/
def Fingerprint.bind (a b : Fingerprint) : Fingerprint :=
  fun w => a w ^^^ b w

/-- The `Fingerprint::unbind` is literally `bind`. -/
def Fingerprint.unbind (a b : Fingerprint) : Fingerprint :=
  Fingerprint.bind a b

/-- Claim C5 (confirmed): `bind` is word-wise (hence bitwise) XOR, and is
self-inverse (`bind (bind a b) a = b`), commutative and associative. -/
theorem C5_bind_xor_algebra (a b c : Fingerprint) :
    (∀ w, Fingerprint.bind a b w = a w ^^^ b w) ∧
      Fingerprint.bind (Fingerprint.bind a b) a = b ∧
      Fingerprint.bind a b = Fingerprint.bind b a ∧
      Fingerprint.bind (Fingerprint.bind a b) c
        = Fingerprint.bind a (Fingerprint.bind b c) := by
  refine ⟨fun w => rfl, ?_, ?_, ?_⟩
  · funext w
    show (a w ^^^ b w) ^^^ a w = b w
    rw [Nat.xor_comm (a w) (b w), Nat.xor_assoc, Nat.xor_self, Nat.xor_zero]
  · funext w
    exact Nat.xor_comm _ _
  · funext w
    exact Nat.xor_assoc _ _ _

lemma popcount64_le (x : Nat) : popcount64 x ≤ 64 := by
  calc popcount64 x ≤ (List.range 64).length := List.countP_le_length _
  _ = 64 := List.length_range 64

lemma popcount64_eq_zero_iff (x : Nat) (hx : x < 2 ^ 64) :
    popcount64 x = 0 ↔ x = 0 := by
  constructor
  · intro h
    apply Nat.eq_of_testBit_eq
    intro i
    rcases lt_or_ge i 64 with hi | hi
    · have := List.countP_eq_zero.mp h i (List.mem_range.mpr hi)
      simpa using this
    · rw [Nat.testBit_eq_false_of_lt (lt_of_lt_of_le hx (Nat.pow_le_pow_right (by norm_num) hi))]
      simp
  · rintro rfl
    simp [popcount64]

lemma countP_range_lt (k n : Nat) :
    (List.range n).countP (fun i => decide (i < k)) = min n k := by
  induction n with
  | zero => simp
  | succ n ih =>
    rw [List.range_succ, List.countP_append, ih]
    by_cases h : n < k <;> simp [List.countP_cons, h] <;> omega

lemma popcount64_le_of_lt (x k : Nat) (hx : x < 2 ^ k) :
    popcount64 x ≤ k := by
  unfold popcount64
  calc (List.range 64).countP (fun i => x.testBit i)
      ≤ (List.range 64).countP (fun i => decide (i < k)) := by
        apply List.countP_mono_left
        intro i _ h
        by_contra hik
        simp only [decide_eq_true_eq] at *
        have : x.testBit i = false :=
          Nat.testBit_eq_false_of_lt
            (lt_of_lt_of_le hx (Nat.pow_le_pow_right (by norm_num) (le_of_not_lt hik)))
        simp [this] at h
  _ = min 64 k := countP_range_lt k 64
  _ ≤ k := min_le_right _ _

lemma popcount64_zero : popcount64 0 = 0 := by
  simp [popcount64]

lemma Fingerprint.hamming_self (a : Fingerprint) : Fingerprint.hamming a a = 0 := by
  simp [Fingerprint.hamming, Nat.xor_self, popcount64_zero]

lemma Fingerprint.hamming_le (a b : Fingerprint) : Fingerprint.hamming a b ≤ 10048 := by
  calc Fingerprint.hamming a b
      ≤ ∑ _w : Fin FINGERPRINT_U64, 64 :=
        Finset.sum_le_sum (fun w _ => popcount64_le _)
  _ = 10048 := by
        rw [Finset.sum_const, Finset.card_univ, Fintype.card_fin]
        norm_num [FINGERPRINT_U64]

/-- The word holding bit positions `9984..10048`; bits `10000..10048` of the
store are the 48 positions beyond `FINGERPRINT_BITS`. -/
def lastWord : Fin FINGERPRINT_U64 := ⟨156, by norm_num [FINGERPRINT_U64]⟩

lemma Fingerprint.hamming_le_of_pad (a b : Fingerprint)
    (ha : a lastWord < 2 ^ 16) (hb : b lastWord < 2 ^ 16) :
    Fingerprint.hamming a b ≤ 10000 := by
  have hx : a lastWord ^^^ b lastWord < 2 ^ 16 := Nat.xor_lt_two_pow ha hb
  have h1 : popcount64 (a lastWord ^^^ b lastWord) ≤ 16 :=
    popcount64_le_of_lt _ 16 hx
  have h2 : ∑ w ∈ Finset.univ.erase lastWord, popcount64 (a w ^^^ b w)
      ≤ ∑ _w ∈ Finset.univ.erase lastWord, 64 :=
    Finset.sum_le_sum (fun w _ => popcount64_le _)
  have h3 : ∑ _w ∈ Finset.univ.erase lastWord, (64 : Nat) = 9984 := by
    rw [Finset.sum_const, Finset.card_erase_of_mem (Finset.mem_univ _),
      Finset.card_univ, Fintype.card_fin]
    norm_num [FINGERPRINT_U64]
  have h4 := Finset.add_sum_erase Finset.univ
    (fun w => popcount64 (a w ^^^ b w)) (Finset.mem_univ lastWord)
  unfold Fingerprint.hamming
  rw [← h4]
  exact le_trans (Nat.add_le_add h1 (le_of_le_of_eq h2 h3)) (by norm_num)

/-- Claim C4 (amended): `similarity(a,a) = 1`, `hamming` is symmetric and (for
64-bit-valid words) zero exactly for bit-identical stores, and
`similarity(a,b) = 1 - hamming(a,b)/10000`.  However `similarity` is *not*
bounded below by `0` in general: the store is `157 × 64 = 10048` bits wide, so
`hamming` can reach `10048` and `similarity` can be as low as
`1 - 10048/10000 = -3/625`; the bound `similarity ∈ [0,1]` does hold whenever
both fingerprints keep the 48 spare bits of the last word clear (last word
`< 2^16`). -/
theorem C4_similarity_spec (a b : Fingerprint) :
    Fingerprint.similarity a a = 1 ∧
      Fingerprint.hamming a b = Fingerprint.hamming b a ∧
      Fingerprint.similarity a b = 1 - (Fingerprint.hamming a b : ℚ) / 10000 ∧
      (a.ValidWords → b.ValidWords →
        (Fingerprint.hamming a b = 0 ↔ a = b)) ∧
      Fingerprint.similarity a b ≤ 1 ∧
      1 - 10048 / 10000 ≤ Fingerprint.similarity a b ∧
      (a lastWord < 2 ^ 16 → b lastWord < 2 ^ 16 →
        0 ≤ Fingerprint.similarity a b) := by
  refine ⟨?_, ?_, ?_, ?_, ?_, ?_, ?_⟩
  · rw [Fingerprint.similarity, Fingerprint.hamming_self]
    norm_num
  · unfold Fingerprint.hamming
    exact Finset.sum_congr rfl (fun w _ => by rw [Nat.xor_comm])
  · rfl
  · intro hva hvb
    constructor
    · intro h
      funext w
      have hw := Finset.sum_eq_zero_iff.mp h w (Finset.mem_univ w)
      have hlt : a w ^^^ b w < 2 ^ 64 := Nat.xor_lt_two_pow (hva w) (hvb w)
      exact Nat.xor_eq_zero.mp ((popcount64_eq_zero_iff _ hlt).mp hw)
    · rintro rfl
      exact Fingerprint.hamming_self a
  · unfold Fingerprint.similarity
    have : (0 : ℚ) ≤ (Fingerprint.hamming a b : ℚ) / (FINGERPRINT_BITS : ℚ) := by
      apply div_nonneg (Nat.cast_nonneg _)
      norm_num [FINGERPRINT_BITS]
    linarith
  · unfold Fingerprint.similarity
    have hle : (Fingerprint.hamming a b : ℚ) ≤ 10048 := by
      exact_mod_cast Fingerprint.hamming_le a b
    have : (Fingerprint.hamming a b : ℚ) / (FINGERPRINT_BITS : ℚ) ≤ 10048 / 10000 := by
      rw [show (FINGERPRINT_BITS : ℚ) = 10000 by norm_num [FINGERPRINT_BITS]]
      exact div_le_div_of_nonneg_right hle (by norm_num) |>.trans_eq rfl
    linarith
  · intro ha hb
    unfold Fingerprint.similarity
    have hle : (Fingerprint.hamming a b : ℚ) ≤ 10000 := by
      exact_mod_cast Fingerprint.hamming_le_of_pad a b ha hb
    have : (Fingerprint.hamming a b : ℚ) / (FINGERPRINT_BITS : ℚ) ≤ 1 := by
      rw [show (FINGERPRINT_BITS : ℚ) = 10000 by norm_num [FINGERPRINT_BITS]]
      exact div_le_one_of_le₀ hle (by norm_num)
    linarith

/-- The all-ones raw store `[u64::MAX; 157]`, constructible via
`Fingerprint::from_raw`. -/
def onesFp : Fingerprint := fun _ => 2 ^ 64 - 1

lemma popcount64_allOnes : popcount64 (2 ^ 64 - 1) = 64 := by decide

/-- Witness for `C4_similarity_spec`: discharges its hypotheses at the
all-zero / all-ones stores (valid 64-bit words, pad bits clear for zero). -/
theorem C4_similarity_spec_witness :
    (Fingerprint.hamming Fingerprint.zero Fingerprint.zero = 0 ↔
        Fingerprint.zero = Fingerprint.zero) ∧
      0 ≤ Fingerprint.similarity Fingerprint.zero Fingerprint.zero :=
  ⟨(C4_similarity_spec Fingerprint.zero Fingerprint.zero).2.2.2.1
      (fun _ => by norm_num [Fingerprint.zero]) (fun _ => by norm_num [Fingerprint.zero]),
    (C4_similarity_spec Fingerprint.zero Fingerprint.zero).2.2.2.2.2.2
      (by norm_num [Fingerprint.zero, lastWord]) (by norm_num [Fingerprint.zero, lastWord])⟩

/-- Claim C4 (counterexample): `similarity` is not bounded below by `0`: the
all-zero and all-ones stores differ in all `10048` backing bits, giving
`similarity = 1 - 10048/10000 < 0`. -/
theorem C4_similarity_below_zero :
    Fingerprint.similarity Fingerprint.zero onesFp < 0 := by
  have hham : Fingerprint.hamming Fingerprint.zero onesFp = 10048 := by
    unfold Fingerprint.hamming
    have : ∀ w : Fin FINGERPRINT_U64,
        popcount64 (Fingerprint.zero w ^^^ onesFp w) = 64 := by
      intro w
      show popcount64 (0 ^^^ (2 ^ 64 - 1)) = 64
      rw [Nat.zero_xor]
      exact popcount64_allOnes
    rw [Finset.sum_congr rfl (fun w _ => this w), Finset.sum_const,
      Finset.card_univ, Fintype.card_fin]
    norm_num [FINGERPRINT_U64]
  rw [Fingerprint.similarity, hham]
  norm_num [FINGERPRINT_BITS]

/-- The `Fingerprint::get_bit`: `(data[pos / 64] >> (pos % 64)) & 1 == 1`.  The
source indexes the array unguarded; every call site uses `pos < 10000`, so the
`else false` default of this model is never reached there (in Rust an
out-of-range index would panic). -/
def Fingerprint.get_bit (fp : Fingerprint) (pos : Nat) : Bool :=
  if h : pos / 64 < FINGERPRINT_U64 then (fp ⟨pos / 64, h⟩).testBit (pos % 64)
  else false

/-- The `Fingerprint::set_bit`: sets/clears bit `pos % 64` of word `pos / 64`.
The `u64` complement `!(1 << bit)` is `(2^64 - 1) ^^^ (1 <<< bit)`. -/
def Fingerprint.set_bit (fp : Fingerprint) (pos : Nat) (value : Bool) : Fingerprint :=
  fun w =>
    if w.val = pos / 64 then
      (if value then fp w ||| (1 <<< (pos % 64))
       else fp w &&& ((2 ^ 64 - 1) ^^^ (1 <<< (pos % 64))))
    else fp w

/-- The `Fingerprint::permute`: `shift = positions.rem_euclid(10000)` (Lean's `%`
on `Int` is `emod`, which is `rem_euclid` for a positive modulus); then for
each `i` in `0..10000`, if bit `i` of the source is set, set bit
`(i + shift) % 10000` of a zero-initialised result. -/
def Fingerprint.permute (fp : Fingerprint) (positions : Int) : Fingerprint :=
  let shift : Nat := (positions % (FINGERPRINT_BITS : Int)).toNat
  (List.range FINGERPRINT_BITS).foldl
    (fun acc i =>
      if fp.get_bit i then acc.set_bit ((i + shift) % FINGERPRINT_BITS) true
      else acc)
    Fingerprint.zero

lemma zero_get_bit (q : Nat) : Fingerprint.zero.get_bit q = false := by
  unfold Fingerprint.get_bit Fingerprint.zero
  split <;> simp

lemma target_word_lt {x : Nat} (hx : x < FINGERPRINT_BITS) :
    x / 64 < FINGERPRINT_U64 := by
  unfold FINGERPRINT_BITS at hx
  unfold FINGERPRINT_U64
  omega

lemma get_bit_set_bit_true (fp : Fingerprint) (p q : Nat)
    (hq : q / 64 < FINGERPRINT_U64) :
    ((fp.set_bit p true).get_bit q = true ↔ (q = p ∨ fp.get_bit q = true)) := by
  unfold Fingerprint.get_bit Fingerprint.set_bit
  rw [dif_pos hq, dif_pos hq]
  by_cases hw : q / 64 = p / 64
  · simp only [hw, if_pos rfl, if_pos]
    rw [Nat.testBit_lor, Nat.one_shiftLeft]
    by_cases hbit : p % 64 = q % 64
    · rw [hbit, Nat.testBit_two_pow_self]
      have : q = p := by omega
      simp [this]
    · rw [Nat.testBit_two_pow_of_ne hbit]
      have : q ≠ p := by omega
      simp [this]
  · rw [if_neg hw]
    have : q ≠ p := by omega
    simp [this]

lemma set_bit_true_hi (fp : Fingerprint) (p : Nat)
    (hfp : ∀ w b, 64 ≤ b → (fp w).testBit b = false) :
    ∀ w b, 64 ≤ b → ((fp.set_bit p true) w).testBit b = false := by
  intro w b hb
  unfold Fingerprint.set_bit
  split
  · rw [if_pos rfl, Nat.testBit_lor, hfp w b hb, Nat.one_shiftLeft,
      Nat.testBit_two_pow_of_ne (by omega)]
    rfl
  · exact hfp w b hb

lemma foldl_permute_hi (fp : Fingerprint) (shift : Nat) :
    ∀ (l : List Nat) (acc : Fingerprint),
      (∀ w b, 64 ≤ b → (acc w).testBit b = false) →
      ∀ w b, 64 ≤ b →
        ((l.foldl
          (fun acc i =>
            if fp.get_bit i then acc.set_bit ((i + shift) % FINGERPRINT_BITS) true
            else acc) acc) w).testBit b = false := by
  intro l
  induction l with
  | nil => intro acc hacc w b hb; exact hacc w b hb
  | cons x xs ih =>
    intro acc hacc w b hb
    simp only [List.foldl_cons]
    by_cases hx : fp.get_bit x
    · rw [if_pos hx]
      exact ih _ (set_bit_true_hi acc _ hacc) w b hb
    · rw [if_neg hx]
      exact ih _ hacc w b hb

lemma get_bit_foldl_permute (fp : Fingerprint) (shift : Nat) :
    ∀ (l : List Nat) (acc : Fingerprint) (q : Nat),
      q / 64 < FINGERPRINT_U64 →
      ((l.foldl
          (fun acc i =>
            if fp.get_bit i then acc.set_bit ((i + shift) % FINGERPRINT_BITS) true
            else acc) acc).get_bit q = true ↔
        (∃ i ∈ l, fp.get_bit i = true ∧ (i + shift) % FINGERPRINT_BITS = q) ∨
          acc.get_bit q = true) := by
  intro l
  induction l with
  | nil => intro acc q hq; simp
  | cons x xs ih =>
    intro acc q hq
    simp only [List.foldl_cons]
    by_cases hx : fp.get_bit x
    · rw [if_pos hx]
      rw [ih _ q hq]
      have htgt : (x + shift) % FINGERPRINT_BITS / 64 < FINGERPRINT_U64 :=
        target_word_lt (Nat.mod_lt _ (by norm_num [FINGERPRINT_BITS]))
      rw [get_bit_set_bit_true acc _ q hq]
      constructor
      · rintro (⟨i, hi, hfi, hq'⟩ | hqp | hacc)
        · exact Or.inl ⟨i, List.mem_cons_of_mem _ hi, hfi, hq'⟩
        · exact Or.inl ⟨x, List.mem_cons_self _ _, hx, hqp.symm⟩
        · exact Or.inr hacc
      · rintro (⟨i, hi, hfi, hq'⟩ | hacc)
        · rcases List.mem_cons.mp hi with rfl | hi'
          · exact Or.inr (Or.inl hq'.symm)
          · exact Or.inl ⟨i, hi', hfi, hq'⟩
        · exact Or.inr (Or.inr hacc)
    · rw [if_neg hx]
      rw [ih _ q hq]
      constructor
      · rintro (⟨i, hi, hfi, hq'⟩ | hacc)
        · exact Or.inl ⟨i, List.mem_cons_of_mem _ hi, hfi, hq'⟩
        · exact Or.inr hacc
      · rintro (⟨i, hi, hfi, hq'⟩ | hacc)
        · rcases List.mem_cons.mp hi with rfl | hi'
          · rw [hfi] at hx; exact absurd rfl hx
          · exact Or.inl ⟨i, hi', hfi, hq'⟩
        · exact Or.inr hacc

/-- Bit `q < 10000` of `permute fp k` is bit `(q - shift) mod 10000` of `fp`,
written with the nonnegative offset `10000 - shift`. -/
lemma get_bit_permute (fp : Fingerprint) (k : Int) (q : Nat)
    (hq : q < FINGERPRINT_BITS) :
    (fp.permute k).get_bit q
      = fp.get_bit
          ((q + (FINGERPRINT_BITS - (k % (FINGERPRINT_BITS : Int)).toNat))
            % FINGERPRINT_BITS) := by
  have hqw : q / 64 < FINGERPRINT_U64 := target_word_lt hq
  set shift : Nat := (k % (FINGERPRINT_BITS : Int)).toNat with hshift
  have hs : shift < FINGERPRINT_BITS := by
    rw [hshift]
    have h1 : (0 : Int) ≤ k % (FINGERPRINT_BITS : Int) :=
      Int.emod_nonneg k (by norm_num [FINGERPRINT_BITS])
    have h2 : k % (FINGERPRINT_BITS : Int) < (FINGERPRINT_BITS : Int) :=
      Int.emod_lt_of_pos k (by norm_num [FINGERPRINT_BITS])
    norm_num [FINGERPRINT_BITS] at h2 ⊢
    omega
  have hiff := get_bit_foldl_permute fp shift (List.range FINGERPRINT_BITS)
    Fingerprint.zero q hqw
  have hperm : (fp.permute k).get_bit q
      = ((List.range FINGERPRINT_BITS).foldl
          (fun acc i =>
            if fp.get_bit i then acc.set_bit ((i + shift) % FINGERPRINT_BITS) true
            else acc) Fingerprint.zero).get_bit q := rfl
  rw [hperm]
  set inv : Nat := (q + (FINGERPRINT_BITS - shift)) % FINGERPRINT_BITS with hinv
  have hinv_lt : inv < FINGERPRINT_BITS :=
    Nat.mod_lt _ (by norm_num [FINGERPRINT_BITS])
  have hinv_round : (inv + shift) % FINGERPRINT_BITS = q := by
    rw [hinv]
    unfold FINGERPRINT_BITS at *
    omega
  rcases hb : fp.get_bit inv with hfalse | htrue
  · rcases hres : ((List.range FINGERPRINT_BITS).foldl
        (fun acc i =>
          if fp.get_bit i then acc.set_bit ((i + shift) % FINGERPRINT_BITS) true
          else acc) Fingerprint.zero).get_bit q
    · exact hres
    · exfalso
      rcases hiff.mp hres with ⟨i, hi, hfi, hq'⟩ | hzero
      · have hilt : i < FINGERPRINT_BITS := List.mem_range.mp hi
        have : i = inv := by
          rw [hinv]
          unfold FINGERPRINT_BITS at *
          omega
        rw [this, hb] at hfi
        exact Bool.false_ne_true hfi
      · rw [zero_get_bit] at hzero
        exact Bool.false_ne_true hzero
  · exact hiff.mpr (Or.inl ⟨inv, List.mem_range.mpr hinv_lt, hb, hinv_round⟩)

/-- Bits at positions `≥ 10000` (the 48 spare storage bits) are always clear
in a permuted fingerprint. -/
lemma get_bit_permute_pad (fp : Fingerprint) (k : Int) (q : Nat)
    (hq : FINGERPRINT_BITS ≤ q) :
    (fp.permute k).get_bit q = false := by
  set shift : Nat := (k % (FINGERPRINT_BITS : Int)).toNat
  by_cases hqw : q / 64 < FINGERPRINT_U64
  · rcases hres : (fp.permute k).get_bit q
    · rfl
    · exfalso
      have hiff := get_bit_foldl_permute fp shift (List.range FINGERPRINT_BITS)
        Fingerprint.zero q hqw
      rcases hiff.mp hres with ⟨i, hi, hfi, hq'⟩ | hzero
      · have : (i + shift) % FINGERPRINT_BITS < FINGERPRINT_BITS :=
          Nat.mod_lt _ (by norm_num [FINGERPRINT_BITS])
        omega
      · rw [zero_get_bit] at hzero
        exact Bool.false_ne_true hzero
  · unfold Fingerprint.get_bit
    rw [dif_neg hqw]

lemma permute_hi (fp : Fingerprint) (k : Int) :
    ∀ w b, 64 ≤ b → ((fp.permute k) w).testBit b = false := by
  intro w b hb
  exact foldl_permute_hi fp ((k % (FINGERPRINT_BITS : Int)).toNat)
    (List.range FINGERPRINT_BITS) Fingerprint.zero
    (fun w' b' _ => Nat.zero_testBit b') w b hb

lemma get_bit_word (fp : Fingerprint) (w : Fin FINGERPRINT_U64) (b : Nat)
    (hb : b < 64) :
    fp.get_bit (64 * w.val + b) = (fp w).testBit b := by
  have hdiv : (64 * w.val + b) / 64 = w.val := by omega
  have hmod : (64 * w.val + b) % 64 = b := by omega
  unfold Fingerprint.get_bit
  rw [dif_pos (show (64 * w.val + b) / 64 < FINGERPRINT_U64 by
    rw [hdiv]; exact w.isLt)]
  simp only [hdiv, hmod]

/-- Two fingerprints whose words are 64-bit-clean and whose `get_bit` views
agree on all `10048` stored positions are equal. -/
lemma fp_ext (x y : Fingerprint)
    (hx : ∀ w b, 64 ≤ b → (x w).testBit b = false)
    (hy : ∀ w b, 64 ≤ b → (y w).testBit b = false)
    (h : ∀ q, q < 64 * FINGERPRINT_U64 → x.get_bit q = y.get_bit q) : x = y := by
  funext w
  apply Nat.eq_of_testBit_eq
  intro b
  rcases lt_or_ge b 64 with hb | hb
  · have hq : 64 * w.val + b < 64 * FINGERPRINT_U64 := by
      have := w.isLt
      omega
    have := h (64 * w.val + b) hq
    rwa [get_bit_word x w b hb, get_bit_word y w b hb] at this
  · rw [hx w b hb, hy w b hb]

set_option maxRecDepth 4000 in
/-- Claim C6 (amended): `permute` cyclically shifts the low `10000` bit
positions by `k mod 10000` and *clears* the 48 spare storage bits above
position `9999`.  The composition law
`permute (permute fp j) k = permute fp (j + k)` holds for every fingerprint,
but `permute fp 0 = fp` holds only for fingerprints whose spare bits are
already clear (and whose words are 64-bit values); the all-ones raw store is
a counterexample (`C6_permute_zero_not_id`). -/
theorem C6_permute_rotation (fp : Fingerprint) (j k : Int) (q : Nat) :
    Fingerprint.permute (Fingerprint.permute fp j) k
        = Fingerprint.permute fp (j + k) ∧
      (q < FINGERPRINT_BITS →
        (fp.permute k).get_bit q
          = fp.get_bit
              ((q + (FINGERPRINT_BITS - (k % (FINGERPRINT_BITS : Int)).toNat))
                % FINGERPRINT_BITS)) ∧
      (FINGERPRINT_BITS ≤ q → (fp.permute k).get_bit q = false) ∧
      (fp.ValidWords → (∀ r, FINGERPRINT_BITS ≤ r → fp.get_bit r = false) →
        Fingerprint.permute fp 0 = fp) := by
  refine ⟨?_, fun hq => get_bit_permute fp k q hq,
    fun hq => get_bit_permute_pad fp k q hq, ?_⟩
  · -- composition
    apply fp_ext _ _ (permute_hi _ k) (permute_hi _ (j + k))
    intro q' hq'
    set sj : Nat := (j % (FINGERPRINT_BITS : Int)).toNat with hsj
    set sk : Nat := (k % (FINGERPRINT_BITS : Int)).toNat with hsk
    set sjk : Nat := ((j + k) % (FINGERPRINT_BITS : Int)).toNat with hsjk
    have hj1 : (0 : Int) ≤ j % (FINGERPRINT_BITS : Int) :=
      Int.emod_nonneg j (by norm_num [FINGERPRINT_BITS])
    have hj2 : j % (FINGERPRINT_BITS : Int) < (FINGERPRINT_BITS : Int) :=
      Int.emod_lt_of_pos j (by norm_num [FINGERPRINT_BITS])
    have hk1 : (0 : Int) ≤ k % (FINGERPRINT_BITS : Int) :=
      Int.emod_nonneg k (by norm_num [FINGERPRINT_BITS])
    have hk2 : k % (FINGERPRINT_BITS : Int) < (FINGERPRINT_BITS : Int) :=
      Int.emod_lt_of_pos k (by norm_num [FINGERPRINT_BITS])
    have hjk1 : (0 : Int) ≤ (j + k) % (FINGERPRINT_BITS : Int) :=
      Int.emod_nonneg _ (by norm_num [FINGERPRINT_BITS])
    have hjk2 : (j + k) % (FINGERPRINT_BITS : Int) < (FINGERPRINT_BITS : Int) :=
      Int.emod_lt_of_pos _ (by norm_num [FINGERPRINT_BITS])
    have hadd := Int.add_emod j k (FINGERPRINT_BITS : Int)
    have hsum : sjk = (sj + sk) % FINGERPRINT_BITS := by
      rw [hsj, hsk, hsjk]
      unfold FINGERPRINT_BITS at *
      omega
    rcases lt_or_ge q' FINGERPRINT_BITS with hlow | hhigh
    · rw [get_bit_permute _ k q' hlow, get_bit_permute fp (j + k) q' hlow]
      have hinvk : (q' + (FINGERPRINT_BITS - sk)) % FINGERPRINT_BITS
          < FINGERPRINT_BITS := Nat.mod_lt _ (by norm_num [FINGERPRINT_BITS])
      rw [get_bit_permute fp j _ hinvk]
      congr 1
      unfold FINGERPRINT_BITS at *
      omega
    · rw [get_bit_permute_pad _ k q' hhigh, get_bit_permute_pad fp (j + k) q' hhigh]
  · -- permute by 0 is the identity on pad-free, 64-bit-clean fingerprints
    intro hvalid hpad
    apply fp_ext _ _ (permute_hi fp 0)
    · intro w b hb
      exact Nat.testBit_eq_false_of_lt
        (lt_of_lt_of_le (hvalid w) (Nat.pow_le_pow_right (by norm_num) hb))
    · intro q' hq'
      rcases lt_or_ge q' FINGERPRINT_BITS with hlow | hhigh
      · conv_lhs => rw [get_bit_permute fp 0 q' hlow]
        have h0 : ((0 : Int) % (FINGERPRINT_BITS : Int)).toNat = 0 := by
          rw [Int.zero_emod]
          rfl
        have harg : (q' + (FINGERPRINT_BITS
            - ((0 : Int) % (FINGERPRINT_BITS : Int)).toNat))
              % FINGERPRINT_BITS = q' := by
          rw [h0]
          unfold FINGERPRINT_BITS at hlow ⊢
          omega
        rw [harg]
      · rw [get_bit_permute_pad fp 0 q' hhigh, hpad q' hhigh]

/-- Witness for `C6_permute_rotation`: discharges its hypotheses at the
all-zero fingerprint, `j = k = 0`, and positions `0` and `10000`. -/
theorem C6_permute_rotation_witness :
    ((Fingerprint.zero.permute 0).get_bit 0
        = Fingerprint.zero.get_bit
            ((0 + (FINGERPRINT_BITS
              - ((0 : Int) % (FINGERPRINT_BITS : Int)).toNat))
              % FINGERPRINT_BITS)) ∧
      ((Fingerprint.zero.permute 0).get_bit 10000 = false) ∧
      Fingerprint.permute Fingerprint.zero 0 = Fingerprint.zero :=
  ⟨(C6_permute_rotation Fingerprint.zero 0 0 0).2.1
      (by norm_num [FINGERPRINT_BITS]),
    (C6_permute_rotation Fingerprint.zero 0 0 10000).2.2.1
      (by norm_num [FINGERPRINT_BITS]),
    (C6_permute_rotation Fingerprint.zero 0 0 0).2.2.2
      (fun w => by norm_num [Fingerprint.zero])
      (fun r hr => zero_get_bit r)⟩

/-- Claim C6 (counterexample): `permute fp 0 = fp` fails on the all-ones raw
store (`from_raw([u64::MAX; 157])`): `permute` clears the 48 spare bits above
position `9999` (e.g. bit `10040`), which are set in the all-ones store. -/
theorem C6_permute_zero_not_id : Fingerprint.permute onesFp 0 ≠ onesFp := by
  intro h
  have h1 : (Fingerprint.permute onesFp 0).get_bit 10040 = false :=
    get_bit_permute_pad onesFp 0 10040 (by norm_num [FINGERPRINT_BITS])
  have h2 : onesFp.get_bit 10040 = true := by decide
  rw [h, h2] at h1
  exact Bool.false_ne_true h1.symm

/-! ## `src/cognitive.rs` — dispersion-based collapse gate

The gate is embedded over exact rationals.  `calculate_sd` in the source
returns `variance.sqrt()`; since the only use of that value is comparison
against nonnegative thresholds (and reporting), the model carries the
variance `calculate_sd_sq = sd²` and compares it against squared thresholds —
equivalent by strict monotonicity of the square root on nonnegatives, which
`gate_state_real_iff` makes explicit. -/

/-- Gate state `Flow | Hold | Block`. -/
inductive GateState where
  | Flow
  | Hold
  | Block
deriving DecidableEq, Repr

/-- The `SD_MAX = 0.5`. -/
def SD_MAX : ℚ := 1/2

/-- The `SD_FLOW_THRESHOLD = 0.30 * SD_MAX`. -/
def SD_FLOW_THRESHOLD : ℚ := (3/10) * SD_MAX

/-- The `SD_BLOCK_THRESHOLD = 0.70 * SD_MAX`. -/
def SD_BLOCK_THRESHOLD : ℚ := (7/10) * SD_MAX

/-- The square of `calculate_sd`: `0` for lists of length `≤ 1`, otherwise
the population variance `Σ (x - mean)² / n`. -/
def calculate_sd_sq (values : List ℚ) : ℚ :=
  if values.length ≤ 1 then 0
  else
    let n : ℚ := (values.length : ℚ)
    let mean := values.sum / n
    (values.map (fun x => (x - mean) * (x - mean))).sum / n

/-- The `get_gate_state`, phrased on the squared dispersion: `sd < t ↔ sd² < t²`
for the nonnegative `sd` and positive thresholds of the source. -/
def get_gate_state_sq (sdSq : ℚ) : GateState :=
  if sdSq < SD_FLOW_THRESHOLD ^ 2 then .Flow
  else if SD_BLOCK_THRESHOLD ^ 2 < sdSq then .Block
  else .Hold

/-- The `CollapseAction`.  (The numeric suffix the source interpolates into its
format strings is not modelled; string payloads carry the fixed text.) -/
inductive CollapseAction where
  | Collapse (winner_index : Nat)
  | Hold (sppm_key : String)
  | Clarify (question : String)
  | Block (reason : String)
deriving DecidableEq, Repr

/-- The `sd` field of a decision: `+∞` for the empty-candidate case, else a
finite value carried as its square. -/
inductive SdSq where
  | inf
  | fin (v : ℚ)
deriving DecidableEq, Repr

/-- The `CollapseDecision`. -/
structure CollapseDecision where
  state : GateState
  sd_sq : SdSq
  can_collapse : Bool
  action : CollapseAction
  reason : String
  winner_index : Option Nat
  winner_score : Option ℚ
deriving DecidableEq, Repr

/-- The `rand_u64`: the source reads `SystemTime::now()` nanoseconds and truncates
to `u64`; the ambient clock is modelled as the explicit argument `now`. -/
def rand_u64 (now : Nat) : Nat := now % 2 ^ 64

/-- Hex key formatting: the text sppm_ followed by the lowercase
hexadecimal digits of the argument. -/
def sppm_key (r : Nat) : String := "sppm_" ++ (Nat.toDigits 16 r).asString

/-- One step of `Iterator::max_by` (`core::cmp::max_by`): keep the
accumulator only when it compares strictly greater, so on ties the *later*
element wins. -/
def maxStep (acc x : Nat × ℚ) : Nat × ℚ :=
  if x.2 < acc.2 then acc else x

/-- The `iter().enumerate().max_by(..)` = `reduce` with `max_by` steps. -/
def maxByEnum (l : List (Nat × ℚ)) : Option (Nat × ℚ) :=
  match l with
  | [] => none
  | x :: xs => some (xs.foldl maxStep x)

/-- The `evaluate_gate` over exact rational scores (the NaN-free restriction of
the `f32` function; see `evaluate_gateF` for the fallible embedding). -/
def evaluate_gate (now : Nat) (candidate_scores : List ℚ)
    (clarification_available : Bool) : CollapseDecision :=
  match candidate_scores with
  | [] =>
    { state := .Block, sd_sq := .inf, can_collapse := false,
      action := .Block "No candidates", reason := "Empty candidate set",
      winner_index := none, winner_score := none }
  | [s] =>
    { state := .Flow, sd_sq := .fin 0, can_collapse := true,
      action := .Collapse 0, reason := "Single candidate",
      winner_index := some 0, winner_score := some s }
  | _ =>
    let sdSq := calculate_sd_sq candidate_scores
    let state := get_gate_state_sq sdSq
    let w := (maxByEnum candidate_scores.enum).getD (0, 0)
    match state with
    | .Flow =>
      { state := .Flow, sd_sq := .fin sdSq, can_collapse := true,
        action := .Collapse w.1, reason := "Low dispersion",
        winner_index := some w.1, winner_score := some w.2 }
    | .Hold =>
      { state := .Hold, sd_sq := .fin sdSq, can_collapse := false,
        action := .Hold (sppm_key (rand_u64 now)),
        reason := "Medium dispersion",
        winner_index := some w.1, winner_score := some w.2 }
    | .Block =>
      if clarification_available then
        { state := .Block, sd_sq := .fin sdSq, can_collapse := false,
          action := .Clarify "Multiple interpretations possible",
          reason := "High dispersion",
          winner_index := some w.1, winner_score := some w.2 }
      else
        { state := .Block, sd_sq := .fin sdSq, can_collapse := false,
          action := .Hold (sppm_key (rand_u64 now)),
          reason := "High dispersion, holding",
          winner_index := some w.1, winner_score := some w.2 }

lemma sd_flow_threshold_eq : SD_FLOW_THRESHOLD = 3/20 := by
  norm_num [SD_FLOW_THRESHOLD, SD_MAX]

lemma sd_block_threshold_eq : SD_BLOCK_THRESHOLD = 7/20 := by
  norm_num [SD_BLOCK_THRESHOLD, SD_MAX]

lemma calculate_sd_sq_nonneg (values : List ℚ) : 0 ≤ calculate_sd_sq values := by
  unfold calculate_sd_sq
  split
  · exact le_refl 0
  · apply div_nonneg
    · apply List.sum_nonneg
      intro x hx
      rcases List.mem_map.mp hx with ⟨y, _, rfl⟩
      exact mul_self_nonneg _
    · exact Nat.cast_nonneg _

lemma gate_flow_iff (v : ℚ) :
    get_gate_state_sq v = .Flow ↔ v < SD_FLOW_THRESHOLD ^ 2 := by
  unfold get_gate_state_sq
  rw [sd_flow_threshold_eq, sd_block_threshold_eq]
  split_ifs with h1 h2 <;> simp_all <;> linarith

lemma gate_block_iff (v : ℚ) :
    get_gate_state_sq v = .Block ↔ SD_BLOCK_THRESHOLD ^ 2 < v := by
  unfold get_gate_state_sq
  rw [sd_flow_threshold_eq, sd_block_threshold_eq]
  split_ifs with h1 h2 <;> simp_all <;> nlinarith

lemma gate_hold_iff (v : ℚ) :
    get_gate_state_sq v = .Hold ↔
      SD_FLOW_THRESHOLD ^ 2 ≤ v ∧ v ≤ SD_BLOCK_THRESHOLD ^ 2 := by
  unfold get_gate_state_sq
  rw [sd_flow_threshold_eq, sd_block_threshold_eq]
  split_ifs with h1 h2 <;> simp_all <;> constructor <;> linarith

/-- The squared-threshold gate agrees with the source's comparison of the
standard deviation `√v` against the thresholds `0.15` and `0.35`. -/
lemma gate_state_real_iff (v : ℚ) (hv : 0 ≤ v) :
    (get_gate_state_sq v = .Flow ↔ Real.sqrt (v : ℝ) < 3/20) ∧
      (get_gate_state_sq v = .Block ↔ 7/20 < Real.sqrt (v : ℝ)) ∧
      (get_gate_state_sq v = .Hold ↔
        3/20 ≤ Real.sqrt (v : ℝ) ∧ Real.sqrt (v : ℝ) ≤ 7/20) := by
  have hflow : get_gate_state_sq v = .Flow ↔ Real.sqrt (v : ℝ) < 3/20 := by
    rw [gate_flow_iff, sd_flow_threshold_eq,
      Real.sqrt_lt' (by norm_num : (0:ℝ) < 3/20),
      show ((3:ℝ)/20)^2 = (((3/20)^2 : ℚ) : ℝ) by norm_num]
    exact Iff.symm Rat.cast_lt
  have hblock : get_gate_state_sq v = .Block ↔ 7/20 < Real.sqrt (v : ℝ) := by
    rw [gate_block_iff, sd_block_threshold_eq,
      Real.lt_sqrt (by norm_num : (0:ℝ) ≤ 7/20),
      show ((7:ℝ)/20)^2 = (((7/20)^2 : ℚ) : ℝ) by norm_num]
    exact Iff.symm Rat.cast_lt
  refine ⟨hflow, hblock, ?_⟩
  have hnotnot : get_gate_state_sq v = .Hold ↔
      ¬ get_gate_state_sq v = .Flow ∧ ¬ get_gate_state_sq v = .Block := by
    cases h : get_gate_state_sq v <;> simp
  rw [hnotnot, hflow, hblock]
  push_neg
  constructor
  · rintro ⟨h1, h2⟩
    exact ⟨h1, h2⟩
  · rintro ⟨h1, h2⟩
    exact ⟨h1, h2⟩

lemma fst_le_of_mem_enumFrom {p : Nat × ℚ} {n : Nat} {l : List ℚ}
    (h : p ∈ List.enumFrom n l) : n ≤ p.1 := by
  rcases p with ⟨i, a⟩
  exact (List.mk_mem_enumFrom_iff_le_and_getElem?_sub.mp h).1

lemma pairwise_enumFrom (l : List ℚ) :
    ∀ n, (List.enumFrom n l).Pairwise (fun p q => p.1 < q.1) := by
  induction l with
  | nil => intro n; exact List.Pairwise.nil
  | cons x xs ih =>
    intro n
    refine List.pairwise_cons.mpr ⟨?_, ih (n + 1)⟩
    intro p hp
    have := fst_le_of_mem_enumFrom hp
    omega

/-- Full characterisation of the `max_by` fold on an index-increasing list:
the result is an element of `acc :: l`, its score is maximal, and every
element strictly after it (larger index) has a strictly smaller score — i.e.
the *last* maximal element wins. -/
lemma foldl_maxStep_spec (l : List (Nat × ℚ)) :
    ∀ acc : Nat × ℚ, (acc :: l).Pairwise (fun p q => p.1 < q.1) →
      (l.foldl maxStep acc ∈ acc :: l) ∧
        (∀ p ∈ acc :: l, p.2 ≤ (l.foldl maxStep acc).2) ∧
        (∀ p ∈ acc :: l, (l.foldl maxStep acc).1 < p.1 →
          p.2 < (l.foldl maxStep acc).2) := by
  induction l with
  | nil =>
    intro acc _
    refine ⟨List.mem_singleton_self _, ?_, ?_⟩
    · intro p hp
      rw [List.mem_singleton.mp hp]
      exact le_refl _
    · intro p hp hlt
      rw [List.mem_singleton.mp hp] at hlt ⊢
      exact absurd hlt (lt_irrefl _)
  | cons x xs ih =>
    intro acc hpw
    simp only [List.foldl_cons]
    have hpw' : ∀ q ∈ x :: xs, acc.1 < q.1 :=
      (List.pairwise_cons.mp hpw).1
    have hpwtail : (x :: xs).Pairwise (fun p q => p.1 < q.1) :=
      (List.pairwise_cons.mp hpw).2
    by_cases hcmp : x.2 < acc.2
    · have hstep : maxStep acc x = acc := by
        unfold maxStep
        rw [if_pos hcmp]
      rw [hstep]
      have hpwacc : (acc :: xs).Pairwise (fun p q => p.1 < q.1) := by
        refine List.pairwise_cons.mpr ⟨?_, (List.pairwise_cons.mp hpwtail).2⟩
        intro q hq
        exact hpw' q (List.mem_cons_of_mem _ hq)
      obtain ⟨hmem, hmax, hlast⟩ := ih acc hpwacc
      refine ⟨?_, ?_, ?_⟩
      · rcases List.mem_cons.mp hmem with h | h
        · exact List.mem_cons.mpr (Or.inl h)
        · exact List.mem_cons.mpr
            (Or.inr (List.mem_cons.mpr (Or.inr h)))
      · intro p hp
        rcases List.mem_cons.mp hp with rfl | hp'
        · exact hmax _ (List.mem_cons_self _ _)
        · rcases List.mem_cons.mp hp' with rfl | hp''
          · calc p.2 ≤ acc.2 := le_of_lt hcmp
            _ ≤ (xs.foldl maxStep acc).2 := hmax _ (List.mem_cons_self _ _)
          · exact hmax _ (List.mem_cons_of_mem _ hp'')
      · intro p hp hlt
        rcases List.mem_cons.mp hp with rfl | hp'
        · exact hlast _ (List.mem_cons_self _ _) hlt
        · rcases List.mem_cons.mp hp' with rfl | hp''
          · calc p.2 < acc.2 := hcmp
            _ ≤ (xs.foldl maxStep acc).2 := hmax _ (List.mem_cons_self _ _)
          · exact hlast _ (List.mem_cons_of_mem _ hp'') hlt
    · have hstep : maxStep acc x = x := by
        unfold maxStep
        rw [if_neg hcmp]
      rw [hstep]
      push_neg at hcmp
      obtain ⟨hmem, hmax, hlast⟩ := ih x hpwtail
      refine ⟨?_, ?_, ?_⟩
      · exact List.mem_cons_of_mem _ hmem
      · intro p hp
        rcases List.mem_cons.mp hp with rfl | hp'
        · calc p.2 ≤ x.2 := hcmp
          _ ≤ (xs.foldl maxStep x).2 := hmax _ (List.mem_cons_self _ _)
        · exact hmax _ hp'
      · intro p hp hlt
        rcases List.mem_cons.mp hp with rfl | hp'
        · exfalso
          have hacc : p.1 < (xs.foldl maxStep x).1 := by
            rcases List.mem_cons.mp hmem with h | h
            · rw [← h] at hpw'
              exact hpw' _ (List.mem_cons_self _ _)
            · exact hpw' _ (List.mem_cons_of_mem _ h)
          exact lt_asymm hacc hlt
        · exact hlast _ hp' hlt

/-- Shape of `evaluate_gate` on two or more candidates: the state comes from
the gate applied to the dispersion, the winner fields come from the
`max_by` fold over the enumerated scores (in every state), and commitment is
permitted exactly in `Flow`; in `Hold` the action carries the key derived
from the clock. -/
lemma evaluate_gate_two (now : Nat) (c : Bool) (a b : ℚ) (rest : List ℚ) :
    (evaluate_gate now (a :: b :: rest) c).state
        = get_gate_state_sq (calculate_sd_sq (a :: b :: rest)) ∧
      (evaluate_gate now (a :: b :: rest) c).sd_sq
        = .fin (calculate_sd_sq (a :: b :: rest)) ∧
      (evaluate_gate now (a :: b :: rest) c).winner_index
        = some (((maxByEnum (a :: b :: rest).enum).getD (0, 0)).1) ∧
      (evaluate_gate now (a :: b :: rest) c).winner_score
        = some (((maxByEnum (a :: b :: rest).enum).getD (0, 0)).2) ∧
      ((evaluate_gate now (a :: b :: rest) c).can_collapse = true ↔
        get_gate_state_sq (calculate_sd_sq (a :: b :: rest)) = .Flow) ∧
      (get_gate_state_sq (calculate_sd_sq (a :: b :: rest)) = .Hold →
        (evaluate_gate now (a :: b :: rest) c).action
          = .Hold (sppm_key (rand_u64 now))) := by
  cases h : get_gate_state_sq (calculate_sd_sq (a :: b :: rest)) <;>
    cases c <;>
    simp [evaluate_gate, h]

/-- The winner reported by `evaluate_gate` on `≥ 2` candidates: an index/score
pair present in the list, with maximal score, and with every *later*
occurrence of the maximum strictly smaller — `max_by` keeps the last maximal
element. -/
lemma winner_spec (now : Nat) (c : Bool) (a b : ℚ) (rest : List ℚ) :
    ∃ (w : Nat) (s : ℚ),
      (evaluate_gate now (a :: b :: rest) c).winner_index = some w ∧
      (evaluate_gate now (a :: b :: rest) c).winner_score = some s ∧
      (a :: b :: rest)[w]? = some s ∧
      (∀ (j : Nat) (q : ℚ), (a :: b :: rest)[j]? = some q → q ≤ s) ∧
      (∀ (j : Nat) (q : ℚ), w < j → (a :: b :: rest)[j]? = some q → q < s) := by
  obtain ⟨_, _, hwi, hws, _, _⟩ := evaluate_gate_two now c a b rest
  have henum : (a :: b :: rest).enum
      = (0, a) :: List.enumFrom 1 (b :: rest) := rfl
  have hpw : ((0, a) :: List.enumFrom 1 (b :: rest)).Pairwise
      (fun p q => p.1 < q.1) := by
    rw [← henum]
    exact pairwise_enumFrom (a :: b :: rest) 0
  obtain ⟨hmem, hmax, hlast⟩ :=
    foldl_maxStep_spec (List.enumFrom 1 (b :: rest)) (0, a) hpw
  set r : Nat × ℚ := (List.enumFrom 1 (b :: rest)).foldl maxStep (0, a) with hr
  have hmb : maxByEnum (a :: b :: rest).enum = some r := by
    rw [henum]
    rfl
  have hgetD : (maxByEnum (a :: b :: rest).enum).getD (0, 0) = r := by
    rw [hmb]
    rfl
  rw [hgetD] at hwi hws
  refine ⟨r.1, r.2, hwi, hws, ?_, ?_, ?_⟩
  · have : r ∈ (a :: b :: rest).enum := by
      rw [henum]
      exact hmem
    exact List.mem_enum_iff_getElem?.mp this
  · intro j q hj
    have hjq : (j, q) ∈ (a :: b :: rest).enum :=
      List.mem_enum_iff_getElem?.mpr hj
    rw [henum] at hjq
    exact hmax (j, q) hjq
  · intro j q hwj hj
    have hjq : (j, q) ∈ (a :: b :: rest).enum :=
      List.mem_enum_iff_getElem?.mpr hj
    rw [henum] at hjq
    exact hlast (j, q) hjq hwj

/-- Claim C2 (amended): with at least two candidates the winner is an argmax of
the scores, but ties are broken by the *last* (highest-index) occurrence of
the maximum, not the first: `Iterator::max_by` returns the later of two equal
elements.  (`C2_tie_goes_to_last` exhibits the tie-breaking direction.) -/
theorem C2_winner_last_argmax (now : Nat) (c : Bool) (scores : List ℚ)
    (h : 2 ≤ scores.length) :
    ∃ (w : Nat) (s : ℚ),
      (evaluate_gate now scores c).winner_index = some w ∧
      (evaluate_gate now scores c).winner_score = some s ∧
      scores[w]? = some s ∧
      (∀ (j : Nat) (q : ℚ), scores[j]? = some q → q ≤ s) ∧
      (∀ (j : Nat) (q : ℚ), w < j → scores[j]? = some q → q < s) := by
  match scores with
  | [] => simp at h
  | [a] => simp at h
  | a :: b :: rest => exact winner_spec now c a b rest

/-- Witness for `C2_winner_last_argmax` at the concrete scores `[1, 2]`. -/
theorem C2_winner_last_argmax_witness :
    ∃ (w : Nat) (s : ℚ),
      (evaluate_gate 0 [1, 2] false).winner_index = some w ∧
      (evaluate_gate 0 [1, 2] false).winner_score = some s ∧
      ([1, 2] : List ℚ)[w]? = some s ∧
      (∀ (j : Nat) (q : ℚ), ([1, 2] : List ℚ)[j]? = some q → q ≤ s) ∧
      (∀ (j : Nat) (q : ℚ), w < j → ([1, 2] : List ℚ)[j]? = some q → q < s) :=
  C2_winner_last_argmax 0 false [1, 2] (by norm_num)

/-- Claim C2 (counterexample): on the two-way tie `[5, 5]` the code reports
winner index `1`, not the first (lowest-index) occurrence `0` that the claim
requires. -/
theorem C2_tie_goes_to_last :
    (evaluate_gate 0 [5, 5] false).winner_index = some 1 ∧
      (evaluate_gate 0 [5, 5] false).winner_index ≠ some 0 := by
  obtain ⟨_, _, hwi, _, _, _⟩ := evaluate_gate_two 0 false 5 5 []
  have henum : ([5, 5] : List ℚ).enum = [(0, 5), (1, 5)] := rfl
  have hmb : maxByEnum ([5, 5] : List ℚ).enum = some (1, 5) := by
    rw [henum]
    norm_num [maxByEnum, maxStep]
  rw [hmb] at hwi
  simp only [Option.getD_some] at hwi
  exact ⟨hwi, by rw [hwi]; simp⟩

/-- Claim C10 (confirmed): on every non-empty score list the decision carries
`winner_index = some _` and `winner_score = some _` — whatever the state —
and the reported score is the list entry at the reported index. -/
theorem C10_winner_present_in_all_states (now : Nat) (c : Bool)
    (scores : List ℚ) (h : scores ≠ []) :
    ∃ (w : Nat) (s : ℚ),
      (evaluate_gate now scores c).winner_index = some w ∧
      (evaluate_gate now scores c).winner_score = some s ∧
      scores[w]? = some s := by
  match scores with
  | [] => exact absurd rfl h
  | [a] =>
    refine ⟨0, a, ?_, ?_, ?_⟩ <;> simp [evaluate_gate]
  | a :: b :: rest =>
    obtain ⟨w, s, hwi, hws, hg, _, _⟩ := winner_spec now c a b rest
    exact ⟨w, s, hwi, hws, hg⟩

/-- Witness for `C10_winner_present_in_all_states` at `[7]`. -/
theorem C10_winner_present_witness :
    ∃ (w : Nat) (s : ℚ),
      (evaluate_gate 0 [7] true).winner_index = some w ∧
      (evaluate_gate 0 [7] true).winner_score = some s ∧
      ([7] : List ℚ)[w]? = some s :=
  C10_winner_present_in_all_states 0 true [7] (by simp)

/-- Claim C9 (code bug, exhibited): the Hold-arm key is derived from the
wall-clock alone (`rand_u64` truncates `SystemTime::now()` nanoseconds), so
two invocations with identical candidate scores and flag but different clock
readings return *different* decisions — `evaluate_gate` is not deterministic
and its keys are not collision-free (equal nanosecond readings collide).
`[0, 0.5]` has dispersion `0.25 ∈ [0.15, 0.35]`, hence state `Hold`. -/
theorem C9_hold_key_from_clock :
    evaluate_gate 1 [0, 1/2] false ≠ evaluate_gate 2 [0, 1/2] false := by
  have hsd : calculate_sd_sq [0, 1/2] = 1/16 := by
    norm_num [calculate_sd_sq]
  have hstate : get_gate_state_sq (calculate_sd_sq [0, 1/2]) = .Hold := by
    rw [hsd, gate_hold_iff, sd_flow_threshold_eq, sd_block_threshold_eq]
    norm_num
  obtain ⟨_, _, _, _, _, hact1⟩ := evaluate_gate_two 1 false 0 (1/2) []
  obtain ⟨_, _, _, _, _, hact2⟩ := evaluate_gate_two 2 false 0 (1/2) []
  have h1 := hact1 hstate
  have h2 := hact2 hstate
  intro heq
  rw [heq] at h1
  have hk := h1.symm.trans h2
  have hkeys : sppm_key (rand_u64 1) ≠ sppm_key (rand_u64 2) := by decide
  injection hk with hstr
  exact hkeys hstr

/-- Claim C1 (confirmed): the gate's case analysis.  `SD_MAX = 0.5` with flow
threshold `0.15 = 30%·0.5` and block threshold `0.35 = 70%·0.5`; the empty
list yields `Block` with infinite dispersion and no commitment; a single
candidate yields `Flow`, dispersion `0`, winner index `0`; with `≥ 2`
candidates the dispersion is the population standard deviation
`√(calculate_sd_sq scores)` and the state is `Flow` below `0.15`, `Hold` on
`[0.15, 0.35]`, `Block` above `0.35`; `[0,10,0,10]` has dispersion exactly
`√25 = 5` and yields `Block`; `[3,3,3,3]` has dispersion `0` and yields
`Flow`. -/
theorem C1_gate_case_analysis (now : Nat) (c : Bool) :
    (SD_MAX = 1/2 ∧ SD_FLOW_THRESHOLD = 3/20 ∧ SD_BLOCK_THRESHOLD = 7/20) ∧
      ((evaluate_gate now [] c).state = .Block ∧
        (evaluate_gate now [] c).sd_sq = .inf ∧
        (evaluate_gate now [] c).can_collapse = false) ∧
      (∀ s : ℚ, (evaluate_gate now [s] c).state = .Flow ∧
        (evaluate_gate now [s] c).sd_sq = .fin 0 ∧
        (evaluate_gate now [s] c).winner_index = some 0 ∧
        (evaluate_gate now [s] c).can_collapse = true) ∧
      (∀ scores : List ℚ, 2 ≤ scores.length →
        (evaluate_gate now scores c).sd_sq = .fin (calculate_sd_sq scores) ∧
        ((evaluate_gate now scores c).state = .Flow ↔
          Real.sqrt ((calculate_sd_sq scores : ℚ) : ℝ) < 3/20) ∧
        ((evaluate_gate now scores c).state = .Hold ↔
          (3/20 ≤ Real.sqrt ((calculate_sd_sq scores : ℚ) : ℝ) ∧
            Real.sqrt ((calculate_sd_sq scores : ℚ) : ℝ) ≤ 7/20)) ∧
        ((evaluate_gate now scores c).state = .Block ↔
          7/20 < Real.sqrt ((calculate_sd_sq scores : ℚ) : ℝ))) ∧
      (calculate_sd_sq [0, 10, 0, 10] = 25 ∧
        Real.sqrt ((25 : ℚ) : ℝ) = 5 ∧
        (evaluate_gate now [0, 10, 0, 10] c).state = .Block) ∧
      (calculate_sd_sq [3, 3, 3, 3] = 0 ∧
        (evaluate_gate now [3, 3, 3, 3] c).state = .Flow) := by
  refine ⟨⟨rfl, sd_flow_threshold_eq, sd_block_threshold_eq⟩, ?_, ?_, ?_, ?_, ?_⟩
  · refine ⟨?_, ?_, ?_⟩ <;> simp [evaluate_gate]
  · intro s
    refine ⟨?_, ?_, ?_, ?_⟩ <;> simp [evaluate_gate]
  · intro scores h
    match scores with
    | [] => simp at h
    | [a] => simp at h
    | a :: b :: rest =>
      obtain ⟨hstate, hsd, _, _, _, _⟩ := evaluate_gate_two now c a b rest
      obtain ⟨hflow, hblock, hhold⟩ :=
        gate_state_real_iff (calculate_sd_sq (a :: b :: rest))
          (calculate_sd_sq_nonneg _)
      rw [hstate]
      exact ⟨hsd, hflow, hhold, hblock⟩
  · have hsdv : calculate_sd_sq [0, 10, 0, 10] = 25 := by
      norm_num [calculate_sd_sq]
    have hsqrt : Real.sqrt ((25 : ℚ) : ℝ) = 5 := by
      rw [show ((25 : ℚ) : ℝ) = (5 : ℝ) ^ 2 by norm_num]
      exact Real.sqrt_sq (by norm_num)
    obtain ⟨hstate, _, _, _, _, _⟩ :=
      evaluate_gate_two now c 0 10 [0, 10]
    refine ⟨hsdv, hsqrt, ?_⟩
    rw [hstate, hsdv, gate_block_iff, sd_block_threshold_eq]
    norm_num
  · have hsdv : calculate_sd_sq [3, 3, 3, 3] = 0 := by
      norm_num [calculate_sd_sq]
    obtain ⟨hstate, _, _, _, _, _⟩ :=
      evaluate_gate_two now c 3 3 [3, 3]
    refine ⟨hsdv, ?_⟩
    rw [hstate, hsdv, gate_flow_iff, sd_flow_threshold_eq]
    norm_num

/-- Witness for `C1_gate_case_analysis`: discharges the length hypothesis at
the concrete scores `[0, 10, 0, 10]`. -/
theorem C1_gate_case_analysis_witness :
    (evaluate_gate 0 [0, 10, 0, 10] false).sd_sq
        = .fin (calculate_sd_sq [0, 10, 0, 10]) ∧
      ((evaluate_gate 0 [0, 10, 0, 10] false).state = .Block ↔
        7/20 < Real.sqrt ((calculate_sd_sq [0, 10, 0, 10] : ℚ) : ℝ)) :=
  let h := (C1_gate_case_analysis 0 false).2.2.2.1 [0, 10, 0, 10] (by norm_num)
  ⟨h.1, h.2.2.2⟩

/-! ## The fallible embedding of `evaluate_gate` over `f32`-with-NaN

`F32` models an `f32` candidate score as either NaN or a finite value
(infinities play no role for the panic behaviour and are not modelled).
The comparator `a.1.partial_cmp(b.1).unwrap()` inside `max_by` panics when
either operand is NaN; panics are modelled as `Except.error ()`. -/

/-- A finite-or-NaN `f32` value. -/
inductive F32 where
  | nan
  | val (q : ℚ)
deriving DecidableEq, Repr

/-- The `f32` addition restricted to finite-or-NaN values: NaN propagates. -/
def F32.add : F32 → F32 → F32
  | .val a, .val b => .val (a + b)
  | _, _ => .nan

/-- The `f32` subtraction: NaN propagates. -/
def F32.sub : F32 → F32 → F32
  | .val a, .val b => .val (a - b)
  | _, _ => .nan

/-- The `f32` multiplication: NaN propagates. -/
def F32.mul : F32 → F32 → F32
  | .val a, .val b => .val (a * b)
  | _, _ => .nan

/-- The `f32` division: NaN propagates.  (A finite value divided by zero is `±∞`
in `f32`; the only divisor used below is the candidate count `≥ 2`, so that
case is unreachable and mapped to NaN.) -/
def F32.div : F32 → F32 → F32
  | .val a, .val b => if b = 0 then .nan else .val (a / b)
  | _, _ => .nan

/-- The `<` comparison on `f32`: any comparison with NaN is `false`. -/
def F32.lt : F32 → F32 → Bool
  | .val a, .val b => decide (a < b)
  | _, _ => false

/-- The `f32::partial_cmp`: `None` when either operand is NaN. -/
def F32.pcmp : F32 → F32 → Option Ordering
  | .val a, .val b => some (compare a b)
  | _, _ => none

/-- The `calculate_sd` over `F32`, carried as the squared dispersion (the
variance); sums are the `Iterator::sum` left folds from `0.0`. -/
def calculate_sd_sqF (values : List F32) : F32 :=
  if values.length ≤ 1 then .val 0
  else
    let n := F32.val (values.length : ℚ)
    let mean := (values.foldl F32.add (.val 0)).div n
    ((values.map (fun x => (x.sub mean).mul (x.sub mean))).foldl
      F32.add (.val 0)).div n

/-- The `get_gate_state` over `F32`, on the squared dispersion.  A NaN dispersion
fails both comparisons, giving `Hold`, exactly as NaN `<` does in the
source. -/
def get_gate_state_sqF (sdSq : F32) : GateState :=
  if sdSq.lt (.val (SD_FLOW_THRESHOLD ^ 2)) then .Flow
  else if (F32.val (SD_BLOCK_THRESHOLD ^ 2)).lt sdSq then .Block
  else .Hold

/-- The `sd` field: `+∞` or a finite-or-NaN square. -/
inductive SdSqF where
  | inf
  | fin (v : F32)
deriving DecidableEq, Repr

/-- The `CollapseDecision` with `f32`-with-NaN score payloads. -/
structure CollapseDecisionF where
  state : GateState
  sd_sq : SdSqF
  can_collapse : Bool
  action : CollapseAction
  reason : String
  winner_index : Option Nat
  winner_score : Option F32
deriving DecidableEq, Repr

/-- One `max_by` step; `partial_cmp(..).unwrap()` on `None` is a panic. -/
def maxStepF (acc x : Nat × F32) : Except Unit (Nat × F32) :=
  match F32.pcmp acc.2 x.2 with
  | none => .error ()
  | some .gt => .ok acc
  | some _ => .ok x

/-- The `iter().enumerate().max_by(..)` with the fallible comparator. -/
def maxByEnumF (l : List (Nat × F32)) : Except Unit (Option (Nat × F32)) :=
  match l with
  | [] => .ok none
  | x :: xs => (xs.foldlM maxStepF x).map some

/-- The `evaluate_gate` over `f32`-with-NaN scores; `.error ()` is a panic. -/
def evaluate_gateF (now : Nat) (candidate_scores : List F32)
    (clarification_available : Bool) : Except Unit CollapseDecisionF :=
  match candidate_scores with
  | [] => .ok
    { state := .Block, sd_sq := .inf, can_collapse := false,
      action := .Block "No candidates", reason := "Empty candidate set",
      winner_index := none, winner_score := none }
  | [s] => .ok
    { state := .Flow, sd_sq := .fin (.val 0), can_collapse := true,
      action := .Collapse 0, reason := "Single candidate",
      winner_index := some 0, winner_score := some s }
  | _ =>
    let sdSq := calculate_sd_sqF candidate_scores
    let state := get_gate_state_sqF sdSq
    match maxByEnumF candidate_scores.enum with
    | .error e => .error e
    | .ok wOpt =>
      let w := wOpt.getD (0, .val 0)
      .ok (match state with
        | .Flow =>
          { state := .Flow, sd_sq := .fin sdSq, can_collapse := true,
            action := .Collapse w.1, reason := "Low dispersion",
            winner_index := some w.1, winner_score := some w.2 }
        | .Hold =>
          { state := .Hold, sd_sq := .fin sdSq, can_collapse := false,
            action := .Hold (sppm_key (rand_u64 now)),
            reason := "Medium dispersion",
            winner_index := some w.1, winner_score := some w.2 }
        | .Block =>
          if clarification_available then
            { state := .Block, sd_sq := .fin sdSq, can_collapse := false,
              action := .Clarify "Multiple interpretations possible",
              reason := "High dispersion",
              winner_index := some w.1, winner_score := some w.2 }
          else
            { state := .Block, sd_sq := .fin sdSq, can_collapse := false,
              action := .Hold (sppm_key (rand_u64 now)),
              reason := "High dispersion, holding",
              winner_index := some w.1, winner_score := some w.2 })

lemma foldlM_maxStepF_ok (l : List (Nat × F32)) :
    ∀ acc : Nat × F32, (∀ p ∈ l, p.2 ≠ F32.nan) → acc.2 ≠ F32.nan →
      ∃ r, l.foldlM maxStepF acc = .ok r ∧ r.2 ≠ F32.nan := by
  induction l with
  | nil =>
    intro acc _ hacc
    exact ⟨acc, rfl, hacc⟩
  | cons x xs ih =>
    intro acc hl hacc
    have hx : x.2 ≠ F32.nan := hl x (List.mem_cons_self _ _)
    have hxs : ∀ p ∈ xs, p.2 ≠ F32.nan :=
      fun p hp => hl p (List.mem_cons_of_mem _ hp)
    rcases ha : acc.2 with _ | qa
    · exact absurd ha hacc
    rcases hb : x.2 with _ | qx
    · exact absurd hb hx
    have hstep : maxStepF acc x
        = (if compare qa qx = .gt then Except.ok acc else Except.ok x) := by
      unfold maxStepF F32.pcmp
      rw [ha, hb]
      rcases hc : compare qa qx <;> simp [hc]
    show ∃ r, (maxStepF acc x >>= fun acc' => xs.foldlM maxStepF acc')
        = .ok r ∧ r.2 ≠ F32.nan
    rw [hstep]
    by_cases hcmp : compare qa qx = .gt
    · rw [if_pos hcmp]
      exact ih acc hxs hacc
    · rw [if_neg hcmp]
      exact ih x hxs hx

lemma evaluate_gateF_ok_of_fold_ok (now : Nat) (c : Bool) (s0 s1 : F32)
    (rest : List F32) (wo : Option (Nat × F32))
    (hwo : maxByEnumF (s0 :: s1 :: rest).enum = .ok wo) :
    ∃ d, evaluate_gateF now (s0 :: s1 :: rest) c = .ok d := by
  rcases h : evaluate_gateF now (s0 :: s1 :: rest) c with e | d
  · exfalso
    simp only [evaluate_gateF, hwo] at h
    exact Except.noConfusion h
  · exact ⟨d, rfl⟩

/-- Claim C3 (amended): `evaluate_gate` returns a decision — never panics — for
every slice of *non-NaN* scores (and for every slice of length `≤ 1`, NaN or
not); but it is not total over all `f32` slices: with a NaN present among
`≥ 2` candidates the comparator `partial_cmp(..).unwrap()` panics
(`C3_nan_panics`). -/
theorem C3_total_without_nan (now : Nat) (c : Bool) (qs : List ℚ) :
    (∃ d, evaluate_gateF now (qs.map F32.val) c = .ok d) ∧
      (∀ s : F32, ∃ d, evaluate_gateF now [s] c = .ok d) ∧
      (∃ d, evaluate_gateF now [] c = .ok d) := by
  refine ⟨?_, fun s => ⟨_, rfl⟩, ⟨_, rfl⟩⟩
  match qs with
  | [] => exact ⟨_, rfl⟩
  | [q] => exact ⟨_, rfl⟩
  | q0 :: q1 :: qrest =>
    have henum : (F32.val q0 :: F32.val q1 :: qrest.map F32.val).enum
        = (0, F32.val q0)
            :: List.enumFrom 1 (F32.val q1 :: qrest.map F32.val) := rfl
    have hnn : ∀ p ∈ List.enumFrom 1 (F32.val q1 :: qrest.map F32.val),
        p.2 ≠ F32.nan := by
      intro p hp
      rcases p with ⟨i, a⟩
      have hget :=
        (List.mk_mem_enumFrom_iff_le_and_getElem?_sub.mp hp).2
      have hmem : a ∈ F32.val q1 :: qrest.map F32.val :=
        List.getElem?_mem hget
      rcases List.mem_cons.mp hmem with h | h
      · rw [h]
        exact fun hc => F32.noConfusion hc
      · rcases List.mem_map.mp h with ⟨q, _, rfl⟩
        exact fun hc => F32.noConfusion hc
    obtain ⟨r, hr, _⟩ := foldlM_maxStepF_ok
      (List.enumFrom 1 (F32.val q1 :: qrest.map F32.val)) (0, F32.val q0)
      hnn (fun hc => F32.noConfusion hc)
    have hmb : maxByEnumF
        ((q0 :: q1 :: qrest).map F32.val).enum = .ok (some r) := by
      show ((List.enumFrom 1 (F32.val q1 :: qrest.map F32.val)).foldlM
        maxStepF (0, F32.val q0)).map some = .ok (some r)
      rw [hr]
      rfl
    exact evaluate_gateF_ok_of_fold_ok now c (F32.val q0) (F32.val q1)
      (qrest.map F32.val) (some r) hmb

/-- Claim C3 (counterexample): a NaN among two candidates panics: the
comparator unwraps `partial_cmp(NaN, 0.0) = None`. -/
theorem C3_nan_panics :
    evaluate_gateF 0 [F32.nan, F32.val 0] false = .error () := rfl
